import Mathlib

/-!
# Verification of the plain-text-accounting parsing grammar

Shallow embedding of the repository's parser (src/lib.rs, src/util.rs) over
`List Char`.  Every nom combinator used by the source is embedded with nom's
documented complete-input semantics; the three external conversions the source
calls (`str::parse` for integers, `chrono::NaiveDate::from_ymd_opt`,
`rust_decimal::Decimal::from_str`) are modelled as noted on their definitions.
A `.expect(..)`/`.unwrap()` in the source is modelled as the `abort` outcome of
`POut`, distinct from an ordinary parse failure.
-/

namespace PTA

/-- Input and spans are lists of characters (the source borrows `&str` slices). -/
abbrev Str := List Char

/-- A pure nom parser: on success, returns the unconsumed remainder and the value. -/
abbrev Parser (α : Type) := Str → Option (Str × α)

/-- Convert a string literal to a character list. -/
def chars (s : String) : Str := s.toList

/-- nom `char(c)`: matches exactly the character `c`. -/
def pchar (c : Char) : Parser Char := fun l =>
  match l with
  | [] => none
  | c' :: r => if c' = c then some (r, c) else none

/-- nom `one_of(s)`: matches one character drawn from `s`. -/
def oneOf (s : Str) : Parser Char := fun l =>
  match l with
  | [] => none
  | c :: r => if c ∈ s then some (r, c) else none

/-- nom `tag(t)`: matches the literal string `t`. -/
def tagP (t : Str) : Parser Str := fun l =>
  if t.isPrefixOf l then some (l.drop t.length, t) else none

/-- Maximal run of characters satisfying `p`, at least one required
(the shape of nom's `digit1`, `alpha1`, `space1`). -/
def takeWhile1 (p : Char → Bool) : Parser Str := fun l =>
  let t := l.takeWhile p
  if t.isEmpty then none else some (l.dropWhile p, t)

/-- nom `digit1`: one or more ASCII digits. -/
def digit1 : Parser Str := takeWhile1 Char.isDigit

/-- nom `alpha1`: one or more ASCII alphabetic characters. -/
def alpha1 : Parser Str := takeWhile1 Char.isAlpha

/-- The character class of nom's `space0`/`space1`: space or tab. -/
def isSpaceTab (c : Char) : Bool := c == ' ' || c == '\t'

/-- nom `space0`: zero or more spaces/tabs, never fails. -/
def space0 : Parser Str := fun l =>
  some (l.dropWhile isSpaceTab, l.takeWhile isSpaceTab)

/-- nom `space1`: one or more spaces/tabs. -/
def space1 : Parser Str := takeWhile1 isSpaceTab

/-- Index of the first occurrence of the substring `t`. -/
def findSub (t : Str) : Str → Option Nat
  | [] => if t.isPrefixOf ([] : Str) then some 0 else none
  | c :: r => if t.isPrefixOf (c :: r) then some 0 else (findSub t r).map (· + 1)

/-- nom `take_until(t)`: returns the input up to (not including) the first
occurrence of `t`, leaving `t` itself unconsumed; fails when `t` never occurs. -/
def takeUntil (t : Str) : Parser Str := fun l =>
  match findSub t l with
  | some i => some (l.drop i, l.take i)
  | none => none

/-- nom `opt(p)`: never fails; wraps success in `some`, failure consumes nothing. -/
def popt {α : Type} (p : Parser α) : Parser (Option α) := fun l =>
  match p l with
  | some (r, a) => some (r, some a)
  | none => some (l, none)

/-- nom `alt((p, q))`: ordered choice. -/
def palt {α : Type} (p q : Parser α) : Parser α := fun l =>
  match p l with
  | some r => some r
  | none => q l

/-- nom `map(p, f)`. -/
def pmap {α β : Type} (p : Parser α) (f : α → β) : Parser β := fun l =>
  match p l with
  | some (r, a) => some (r, f a)
  | none => none

/-- nom `map_res(p, f)`: fails when the conversion `f` fails. -/
def mapRes {α β : Type} (p : Parser α) (f : α → Option β) : Parser β := fun l =>
  match p l with
  | some (r, a) =>
    match f a with
    | some b => some (r, b)
    | none => none
  | none => none

/-- Sequencing used to express nom `tuple`s. -/
def pbind {α β : Type} (p : Parser α) (f : α → Parser β) : Parser β := fun l =>
  match p l with
  | some (r, a) => f a r
  | none => none

/-- nom `preceded(p, q)`. -/
def preceded {α β : Type} (p : Parser α) (q : Parser β) : Parser β :=
  pbind p (fun _ => q)

/-- nom `terminated(p, q)`. -/
def terminated {α β : Type} (p : Parser α) (q : Parser β) : Parser α :=
  pbind p (fun a => pmap q (fun _ => a))

/-- nom `separated_pair(p, s, q)`. -/
def separatedPair {α β γ : Type} (p : Parser α) (s : Parser β) (q : Parser γ) :
    Parser (α × γ) :=
  pbind p (fun a => pbind s (fun _ => pmap q (fun c => (a, c))))

/-- nom `delimited(o, m, c)`. -/
def delimitedP {α β γ : Type} (o : Parser α) (m : Parser β) (c : Parser γ) :
    Parser β :=
  pbind o (fun _ => pbind m (fun b => pmap c (fun _ => b)))

/-- nom `recognize(p)`: returns the consumed span instead of `p`'s value. -/
def recognizeP {α : Type} (p : Parser α) : Parser Str := fun l =>
  match p l with
  | some (r, _) => some (r, l.take (l.length - r.length))
  | none => none

/-- Fuelled loop of nom `many0(p)`: stops at the first failure of `p`; like nom,
it errors when `p` succeeds without consuming (infinite-loop protection).  The
fuel is an upper bound on iterations; `many0` supplies `l.length`, which can
never run out because every iteration consumes at least one character. -/
def many0Go {α : Type} (p : Parser α) : Nat → Parser (List α)
  | 0 => fun l =>
    match p l with
    | none => some (l, [])
    | some _ => none
  | f + 1 => fun l =>
    match p l with
    | none => some (l, [])
    | some (r, a) =>
      if l.length ≤ r.length then none
      else
        match many0Go p f r with
        | some (r2, as) => some (r2, a :: as)
        | none => none

/-- nom `many0(p)`. -/
def many0 {α : Type} (p : Parser α) : Parser (List α) := fun l =>
  many0Go p l.length l

/-- nom `many1(p)`: `p` once, then `many0`-style repetition. -/
def many1 {α : Type} (p : Parser α) : Parser (List α) := fun l =>
  match p l with
  | none => none
  | some (r, a) =>
    match many0 p r with
    | some (r2, as) => some (r2, a :: as)
    | none => none

/-- nom `line_ending`: matches `"\n"` or `"\r\n"`. -/
def lineEnding : Parser Str := fun l =>
  match l with
  | '\n' :: r => some (r, ['\n'])
  | '\r' :: '\n' :: r => some (r, ['\r', '\n'])
  | _ => none

/-- nom complete `not_line_ending`: everything up to the first `'\r'` or `'\n'`
(left unconsumed); a `'\r'` not followed by `'\n'` is an error. -/
def notLineEnding : Parser Str := fun l =>
  let memo := l.takeWhile (fun c => !(c == '\r' || c == '\n'))
  match l.dropWhile (fun c => !(c == '\r' || c == '\n')) with
  | [] => some ([], memo)
  | c0 :: rest2 =>
    if c0 = '\r' then
      match rest2 with
      | [] => none
      | c1 :: _ => if c1 = '\n' then some (c0 :: rest2, memo) else none
    else some (c0 :: rest2, memo)

/-! ## src/util.rs -/

/-- Source `util::decimal`: `recognize(many1(terminated(one_of("0123456789"), many0(char('_')))))` —
a digit run where each digit may be followed by grouping underscores. -/
def decimal : Parser Str :=
  recognizeP (many1 (terminated (oneOf (chars "0123456789")) (many0 (pchar '_'))))

/-- Source `util::float`: three alternatives — `.42`-shaped, mandatory-exponent-shaped,
and `42.`/`42.42`-shaped literals. -/
def float : Parser Str :=
  palt
    (recognizeP (pbind (pchar '.') fun _ =>
      pbind decimal fun _ =>
        popt (pbind (oneOf (chars "eE")) fun _ =>
          pbind (popt (oneOf (chars "+-"))) fun _ => decimal)))
    (palt
      (recognizeP (pbind decimal fun _ =>
        pbind (popt (preceded (pchar '.') decimal)) fun _ =>
          pbind (oneOf (chars "eE")) fun _ =>
            pbind (popt (oneOf (chars "+-"))) fun _ => decimal))
      (recognizeP (pbind decimal fun _ =>
        pbind (pchar '.') fun _ => popt decimal)))

/-- Source `util::space2`: one space, then `space1` (one or more further spaces/tabs). -/
def space2 : Parser Unit := fun l =>
  match pchar ' ' l with
  | none => none
  | some (r, _) =>
    match space1 r with
    | none => none
    | some (r2, _) => some (r2, ())

/-! ## Data model (src/lib.rs) and modelled external conversions -/

/-- Embeds `chrono::NaiveDate`, viewed through its year/month/day fields. -/
structure NaiveDate where
  year : Int
  month : Nat
  day : Nat
deriving DecidableEq, Repr

/-- Source `TransactionState` from src/lib.rs. -/
inductive TransactionState where
  | Cleared
  | Pending
  | Uncleared
deriving DecidableEq, Repr

/-- Source `Account` from src/lib.rs: the literal path string. -/
structure Account where
  name : Str
deriving DecidableEq, Repr

/-- Embeds `rust_decimal::Decimal`, modelled as a scaled integer: the represented
value is `num / 10 ^ scale` (`Decimal::new(2000, 2)` is `⟨2000, 2⟩` = 20.00). -/
structure Dec where
  num : Int
  scale : Nat
deriving DecidableEq, Repr

/-- Embeds the `Decimal` `PartialEq`: comparison by numeric value, independent of scale. -/
def Dec.valEq (a b : Dec) : Prop := a.num * 10 ^ b.scale = b.num * 10 ^ a.scale

instance (a b : Dec) : Decidable (a.valEq b) := Int.decEq _ _

/-- Source `Amount` from src/lib.rs. -/
structure Amount where
  currency : Str
  amount : Dec
deriving DecidableEq, Repr

/-- Source `Posting` from src/lib.rs. -/
structure Posting where
  account : Account
  amount : Option Amount
deriving DecidableEq, Repr

/-- Source `Transaction` from src/lib.rs (field name `auxillary_date` kept as in source). -/
structure Transaction where
  date : NaiveDate
  auxillary_date : Option NaiveDate
  state : TransactionState
  code : Option Str
  merchant : Option Str
  memo : Str
  postings : List Posting
deriving DecidableEq, Repr

/-- Numeric value of a digit string. -/
def natVal (s : Str) : Nat :=
  s.foldl (fun acc c => acc * 10 + (c.toNat - '0'.toNat)) 0

/-- Embeds `str::parse` at `i32` as applied to `digit1` output: succeeds on a nonempty
all-digit string whose value fits in an `i32`. -/
def parseI32 (s : Str) : Option Int :=
  if s ≠ [] ∧ s.all Char.isDigit ∧ natVal s ≤ 2147483647 then some (natVal s) else none

/-- Embeds `str::parse` at `u32` as applied to `digit1` output: succeeds on a nonempty
all-digit string whose value fits in a `u32`. -/
def parseU32 (s : Str) : Option Nat :=
  if s ≠ [] ∧ s.all Char.isDigit ∧ natVal s ≤ 4294967295 then some (natVal s) else none

/-- Proleptic Gregorian leap-year rule. -/
def isLeap (y : Int) : Bool :=
  (y % 4 == 0 && y % 100 != 0) || y % 400 == 0

/-- Days in a month of the proleptic Gregorian calendar. -/
def daysInMonth (y : Int) (m : Nat) : Nat :=
  if m = 1 ∨ m = 3 ∨ m = 5 ∨ m = 7 ∨ m = 8 ∨ m = 10 ∨ m = 12 then 31
  else if m = 4 ∨ m = 6 ∨ m = 9 ∨ m = 11 then 30
  else if isLeap y then 29 else 28

/-- Modelled from the spec: `chrono::NaiveDate::from_ymd_opt` (the crate itself
is not under src/).  Valid iff month ∈ [1,12] and the day is valid for the
given month/year under the Gregorian rules (spec §3, §4.2), within chrono's
documented representable year range. -/
def fromYmdOpt (y : Int) (m d : Nat) : Option NaiveDate :=
  if -262144 ≤ y ∧ y ≤ 262143 ∧ 1 ≤ m ∧ m ≤ 12 ∧ 1 ≤ d ∧ d ≤ daysInMonth y m then
    some ⟨y, m, d⟩
  else none

/-- Modelled from the spec: `rust_decimal::Decimal::from_str` (the crate itself
is not under src/).  Per the spec's contract note (§4.1, §4.7), a span still
containing grouping separators — or any other malformed literal — fails
conversion; well-formed literals are an optional sign, an integer digit run,
and an optional fractional digit run, producing the scaled-integer value. -/
def decFromStr (l : Str) : Option Dec :=
  let (sgn, l') : Int × Str :=
    match l with
    | '-' :: r => (-1, r)
    | '+' :: r => (1, r)
    | _ => (1, l)
  let ip := l'.takeWhile Char.isDigit
  let rest := l'.dropWhile Char.isDigit
  match rest with
  | [] => if ip = [] then none else some ⟨sgn * natVal ip, 0⟩
  | '.' :: fp =>
    if fp.all Char.isDigit ∧ ip ≠ [] then some ⟨sgn * natVal (ip ++ fp), fp.length⟩
    else none
  | _ => none

/-! ## Abortable parsers

`date` and `amount` call `.expect(..)`/`.unwrap()` on conversion results: a
failed conversion there does not produce a parse error but aborts the whole
process.  `POut` distinguishes that `abort` outcome from an ordinary `fail`. -/

/-- Outcome of a parser that may panic: success, recoverable parse failure, or
process abort. -/
inductive POut (α : Type) where
  | ok : Str → α → POut α
  | fail : POut α
  | abort : POut α
deriving DecidableEq, Repr

/-- Lifting of `opt` over an abortable parser: a panic inside the inner parser still
propagates; an ordinary failure becomes `none`. -/
def optA {α : Type} (p : Str → POut α) : Str → POut (Option α) := fun l =>
  match p l with
  | .ok r a => .ok r (some a)
  | .fail => .ok l none
  | .abort => .abort

/-- Fuelled loop of nom `separated_list0(sep, elem)` after the first element:
repeatedly a separator then an element; stops (successfully) when either fails;
like nom, errors when the separator succeeds without consuming.  `elem` is
abortable.  The fuel bounds iterations; `sepList0` supplies enough that it can
never run out, since every iteration consumes at least one character. -/
def sepListGo {α β : Type} (sep : Parser β) (elem : Str → POut α) :
    Nat → Str → POut (List α)
  | 0, l =>
    match sep l with
    | none => .ok l []
    | some _ => .fail
  | f + 1, l =>
    match sep l with
    | none => .ok l []
    | some (r1, _) =>
      if l.length ≤ r1.length then .fail
      else
        match elem r1 with
        | .fail => .ok l []
        | .abort => .abort
        | .ok r2 a =>
          match sepListGo sep elem f r2 with
          | .ok r3 as => .ok r3 (a :: as)
          | x => x

/-- nom `separated_list0(sep, elem)` with an abortable element parser:
first the element alone (failure yields the empty list), then the loop. -/
def sepList0 {α β : Type} (sep : Parser β) (elem : Str → POut α) :
    Str → POut (List α) := fun l =>
  match elem l with
  | .fail => .ok l []
  | .abort => .abort
  | .ok r a =>
    match sepListGo sep elem (r.length + 1) r with
    | .ok r2 as => .ok r2 (a :: as)
    | x => x

/-! ## src/lib.rs parsers -/

/-- Source `transaction_state`: `opt(alt((value(Cleared, char('*')), value(Pending, char('!')))))`,
defaulting to `Uncleared`. -/
def transaction_state : Parser TransactionState := fun l =>
  match popt (palt (pmap (pchar '*') (fun _ => TransactionState.Cleared))
                   (pmap (pchar '!') (fun _ => TransactionState.Pending))) l with
  | some (r, some s) => some (r, s)
  | some (r, none) => some (r, TransactionState.Uncleared)
  | none => none

/-- The pure part of `amount`: the four-way `alt` over currency/number orderings. -/
def amountCore : Parser (Str × Str) :=
  palt (separatedPair alpha1 space0 float)
    (palt (separatedPair alpha1 space0 digit1)
      (palt (pmap (separatedPair float space0 alpha1) (fun p => (p.2, p.1)))
        (pmap (separatedPair digit1 space0 alpha1) (fun p => (p.2, p.1)))))

/-- Source `amount`: the four-way alternation, then `Decimal::from_str(amount).unwrap()` —
a failing conversion aborts the process. -/
def amount (l : Str) : POut Amount :=
  match amountCore l with
  | none => .fail
  | some (r, (c, a)) =>
    match decFromStr a with
    | some q => .ok r ⟨c, q⟩
    | none => .abort

/-- Source `posting`: `take_until(" ")` as the account name, `space2`, then `opt(amount)`. -/
def posting (l : Str) : POut Posting :=
  match takeUntil [' '] l with
  | none => .fail
  | some (r1, name) =>
    match space2 r1 with
    | none => .fail
    | some (r2, _) =>
      match amount r2 with
      | .ok r3 a => .ok r3 ⟨⟨name⟩, some a⟩
      | .fail => .ok r2 ⟨⟨name⟩, none⟩
      | .abort => .abort

/-- The pure tuple part of `date`: `digit1` as `i32`, a `-`/`/` separator,
`digit1` as `u32`, a `-`/`/` separator, `digit1` as `u32`. -/
def dateCore : Parser (Int × Nat × Nat) :=
  pbind (mapRes digit1 parseI32) fun y =>
    pbind (palt (tagP ['-']) (tagP ['/'])) fun _ =>
      pbind (mapRes digit1 parseU32) fun m =>
        pbind (palt (tagP ['-']) (tagP ['/'])) fun _ =>
          pmap (mapRes digit1 parseU32) fun d => (y, m, d)

/-- Source `date`: the tuple grammar, then
`NaiveDate::from_ymd_opt(year, month, day).expect("Invalid date")` —
a calendrically invalid triple aborts the process. -/
def date (l : Str) : POut NaiveDate :=
  match dateCore l with
  | none => .fail
  | some (r, (y, m, d)) =>
    match fromYmdOpt y m d with
    | some dt => .ok r dt
    | none => .abort

/-- Source `description`: `opt(take_until(" | "))` for the merchant; when a merchant was
found, the delimiter is consumed and the memo is `not_line_ending`, otherwise
the whole remaining line is the memo. -/
def description : Parser (Option Str × Str) := fun l =>
  match popt (takeUntil (chars " | ")) l with
  | none => none
  | some (r, some merchant) =>
    (match tagP (chars " | ") r with
     | none => none
     | some (r2, _) =>
       match notLineEnding r2 with
       | none => none
       | some (r3, memo) => some (r3, (some merchant, memo)))
  | some (r, none) =>
    match notLineEnding r with
    | none => none
    | some (r3, memo) => some (r3, (none, memo))

/-- Source `auxillary_date`: `preceded(tag("="), date)`. -/
def auxillary_date (l : Str) : POut NaiveDate :=
  match tagP ['='] l with
  | none => .fail
  | some (r, _) => date r

/-- Source `code`: `delimited(tag("("), take_until(")"), tag(")"))`. -/
def code : Parser Str := delimitedP (tagP ['(']) (takeUntil [')']) (tagP [')'])

/-- Source `transaction`: the top-level sequence.  The source's auxiliary-date step,
`alt(char(' '), opt(auxillary_date))`, is ill-typed (nom's `alt` takes a single
tuple of parsers of one common output type), so that one step is modelled from
the spec (§9): the auxiliary date is optional and directly follows the primary
date with no intervening space, and is itself followed by the state marker with
no mandatory space.  All other steps follow the source. -/
def transaction (l : Str) : POut Transaction :=
  match date l with
  | .fail => .fail
  | .abort => .abort
  | .ok r1 d =>
    match optA auxillary_date r1 with
    | .fail => .fail
    | .abort => .abort
    | .ok r2 aux =>
      match transaction_state r2 with
      | none => .fail
      | some (r3, st) =>
        match popt code r3 with
        | none => .fail
        | some (r4, cd) =>
          match description r4 with
          | none => .fail
          | some (r5, (mer, memo)) =>
            match sepList0 lineEnding posting r5 with
            | .fail => .fail
            | .abort => .abort
            | .ok r6 ps => .ok r6 ⟨d, aux, st, cd, mer, memo, ps⟩

/-- Formalisation of the amended posting claim: the account is all text up to
(but not including) the first single space; that first space must be
immediately followed by at least one further space or tab, and the whole
whitespace run is consumed as the separator; then an optional amount (an
aborting amount conversion still aborts).  The parse fails when the input
contains no space at all, and when the first space is followed by neither a
space nor a tab. -/
def postingSpec (l : Str) : POut Posting :=
  if ' ' ∈ l then
    let a := l.takeWhile (fun c => c != ' ')
    let r := (l.dropWhile (fun c => c != ' ')).tail
    if (r.takeWhile isSpaceTab).isEmpty then .fail
    else
      let r2 := r.dropWhile isSpaceTab
      match amount r2 with
      | .ok r3 am => .ok r3 ⟨⟨a⟩, some am⟩
      | .fail => .ok r2 ⟨⟨a⟩, none⟩
      | .abort => .abort
  else .fail

/-! ## Helper lemmas -/

theorem pchar_suffix {c : Char} {l r : Str} {a : Char}
    (h : pchar c l = some (r, a)) : List.IsSuffix r l := by
  cases l with
  | nil => simp [pchar] at h
  | cons c' t =>
    simp only [pchar] at h
    by_cases hc : c' = c
    · simp only [hc, if_pos rfl, Option.some.injEq, Prod.mk.injEq] at h
      obtain ⟨rfl, rfl⟩ := h
      exact List.suffix_cons _ _
    · simp [hc] at h

theorem oneOf_suffix {s l r : Str} {a : Char}
    (h : oneOf s l = some (r, a)) : List.IsSuffix r l := by
  cases l with
  | nil => simp [oneOf] at h
  | cons c' t =>
    simp only [oneOf] at h
    by_cases hc : c' ∈ s
    · simp only [if_pos hc, Option.some.injEq, Prod.mk.injEq] at h
      obtain ⟨rfl, rfl⟩ := h
      exact List.suffix_cons _ _
    · simp [hc] at h

theorem many0Go_suffix {α : Type} {p : Parser α}
    (hp : ∀ l r a, p l = some (r, a) → List.IsSuffix r l) :
    ∀ (f : Nat) (l r : Str) (as : List α),
      many0Go p f l = some (r, as) → List.IsSuffix r l := by
  intro f
  induction f with
  | zero =>
    intro l r as h
    simp only [many0Go] at h
    cases hpl : p l with
    | none => simp only [hpl, Option.some.injEq, Prod.mk.injEq] at h
              obtain ⟨rfl, rfl⟩ := h
              exact List.suffix_refl _
    | some pr => simp [hpl] at h
  | succ f ih =>
    intro l r as h
    simp only [many0Go] at h
    cases hpl : p l with
    | none => simp only [hpl, Option.some.injEq, Prod.mk.injEq] at h
              obtain ⟨rfl, rfl⟩ := h
              exact List.suffix_refl _
    | some pr =>
      obtain ⟨r1, a⟩ := pr
      simp only [hpl] at h
      by_cases hlen : l.length ≤ r1.length
      · simp [hlen] at h
      · simp only [if_neg hlen] at h
        cases hgo : many0Go p f r1 with
        | none => simp [hgo] at h
        | some pr2 =>
          obtain ⟨r2, as2⟩ := pr2
          simp only [hgo, Option.some.injEq, Prod.mk.injEq] at h
          obtain ⟨rfl, rfl⟩ := h
          exact (ih r1 _ as2 hgo).trans (hp l r1 a hpl)

theorem many0_suffix {α : Type} {p : Parser α}
    (hp : ∀ l r a, p l = some (r, a) → List.IsSuffix r l)
    {l r : Str} {as : List α} (h : many0 p l = some (r, as)) : List.IsSuffix r l :=
  many0Go_suffix hp l.length l r as h

/-- The repeated element of `util::decimal`: a digit, then any grouping underscores. -/
def digitRun : Parser Char :=
  terminated (oneOf (chars "0123456789")) (many0 (pchar '_'))

theorem digitRun_suffix {l r : Str} {a : Char}
    (h : digitRun l = some (r, a)) : List.IsSuffix r l := by
  simp only [digitRun, terminated, pbind, pmap] at h
  cases h1 : oneOf (chars "0123456789") l with
  | none => simp [h1] at h
  | some pr =>
    obtain ⟨r1, c⟩ := pr
    simp only [h1] at h
    cases h2 : many0 (pchar '_') r1 with
    | none => simp [h2] at h
    | some pr2 =>
      obtain ⟨r2, x⟩ := pr2
      simp only [h2, Option.some.injEq, Prod.mk.injEq] at h
      obtain ⟨rfl, rfl⟩ := h
      exact (many0_suffix (fun l r a => pchar_suffix) h2).trans (oneOf_suffix h1)

theorem decimal_eq_digitRun : decimal = recognizeP (many1 digitRun) := rfl

theorem decimal_suffix {l r tk : Str}
    (h : decimal l = some (r, tk)) : List.IsSuffix r l := by
  rw [decimal_eq_digitRun] at h
  simp only [recognizeP, many1] at h
  cases h1 : digitRun l with
  | none => simp [h1] at h
  | some pr =>
    obtain ⟨r1, a⟩ := pr
    simp only [h1] at h
    cases h2 : many0 digitRun r1 with
    | none => simp [h2] at h
    | some pr2 =>
      obtain ⟨r2, as⟩ := pr2
      simp only [h2, Option.some.injEq, Prod.mk.injEq] at h
      obtain ⟨rfl, rfl⟩ := h
      exact (many0_suffix (fun l r a => digitRun_suffix) h2).trans (digitRun_suffix h1)

theorem digit_or_underscore_not_special {c : Char}
    (h : c.isDigit = true ∨ c = '_') : c ≠ '.' ∧ c ∉ chars "eE" := by
  rcases h with h | h
  · refine ⟨fun hc => ?_, fun hm => ?_⟩
    · subst hc; exact absurd h (by decide)
    · have : c = 'e' ∨ c = 'E' := by simpa [chars] using hm
      rcases this with rfl | rfl
      · exact absurd h (by decide)
      · exact absurd h (by decide)
  · subst h; exact ⟨by decide, by decide⟩

/-- On a digit-or-underscore-only input, `float` fails: the leading-dot branch
needs `'.'` first, and the other two branches need `'.'` or an exponent
character right after the leading digit run. -/
theorem float_fails_on_digit_run (l : Str)
    (h : ∀ c ∈ l, c.isDigit = true ∨ c = '_') : float l = none := by
  have hrest : ∀ r : Str, List.IsSuffix r l →
      pchar '.' r = none ∧ oneOf (chars "eE") r = none := by
    intro r hr
    cases r with
    | nil => exact ⟨rfl, rfl⟩
    | cons c t =>
      have hc := digit_or_underscore_not_special (h c (hr.subset (List.mem_cons_self c t)))
      constructor
      · simp [pchar, hc.1]
      · simp [oneOf, hc.2]
  have hfloat1 : pchar '.' l = none := (hrest l (List.suffix_refl l)).1
  cases hdec : decimal l with
  | none => simp [float, palt, recognizeP, pbind, preceded, popt, hfloat1, hdec]
  | some p =>
    obtain ⟨r, tk⟩ := p
    have hsuf := decimal_suffix hdec
    have hr := hrest r hsuf
    simp [float, palt, recognizeP, pbind, preceded, popt, hfloat1, hdec, hr.1, hr.2]

theorem findSub_cons_eq (c : Char) (r : Str) : findSub [c] (c :: r) = some 0 := by
  simp [findSub, List.isPrefixOf]

theorem findSub_cons_ne {c c' : Char} (r : Str) (h : c' ≠ c) :
    findSub [c] (c' :: r) = (findSub [c] r).map (· + 1) := by
  simp [findSub, List.isPrefixOf, beq_iff_eq, Ne.symm h]

/-- Evaluating `take_until` with a single-character pattern is the `takeWhile`/`dropWhile`
split at the first occurrence of that character. -/
theorem takeUntil_single (c : Char) (l : Str) :
    takeUntil [c] l =
      if c ∈ l then
        some (l.dropWhile (fun x => x != c), l.takeWhile (fun x => x != c))
      else none := by
  induction l with
  | nil => simp [takeUntil, findSub, List.isPrefixOf]
  | cons c' r ih =>
    by_cases hc : c' = c
    · subst hc
      simp [takeUntil, findSub_cons_eq]
    · simp only [takeUntil, findSub_cons_ne r hc] at ih ⊢
      cases hf : findSub [c] r with
      | none =>
        simp only [hf] at ih
        by_cases hm : c ∈ r
        · rw [if_pos hm] at ih; cases ih
        · have : c ∉ c' :: r := by
            simp [List.mem_cons, hm, Ne.symm hc]
          simp [this]
      | some i =>
        simp only [hf] at ih
        have hm : c ∈ r := by
          by_contra hm
          rw [if_neg hm] at ih; cases ih
        rw [if_pos hm] at ih
        have hmc : c ∈ c' :: r := List.mem_cons_of_mem c' hm
        injection ih with ih
        obtain ⟨h1, h2⟩ := Prod.mk.injEq .. ▸ ih
        simp [hmc, hc, List.takeWhile_cons, List.dropWhile_cons, ← h1, ← h2]

theorem dropWhile_mem_space (l : Str) (hm : ' ' ∈ l) :
    l.dropWhile (fun x => x != ' ') = ' ' :: (l.dropWhile (fun x => x != ' ')).tail := by
  induction l with
  | nil => cases hm
  | cons c r ih =>
    by_cases hc : c = ' '
    · subst hc
      simp [List.dropWhile_cons]
    · have hm' : ' ' ∈ r := by
        rcases List.mem_cons.mp hm with h | h
        · exact absurd h.symm hc
        · exact h
      simpa [List.dropWhile_cons, hc] using ih hm'

end PTA

namespace PTA

/-- The posting parser coincides everywhere with the amended description
`postingSpec`: account up to the first single space, that space followed by at
least one more space or tab, then an optional amount. -/
theorem posting_matches_spec (l : Str) : posting l = postingSpec l := by
  unfold posting postingSpec
  rw [takeUntil_single ' ' l]
  by_cases hm : ' ' ∈ l
  · simp only [if_pos hm]
    rw [dropWhile_mem_space l hm]
    simp only [space2, space1, takeWhile1, pchar, List.tail_cons]
    by_cases hws : ((l.dropWhile (fun x => x != ' ')).tail.takeWhile isSpaceTab).isEmpty
    · simp [hws]
    · simp [hws]
  · simp [hm]

theorem takeWhile_append_all (p : Char → Bool) (a rest : Str)
    (hr : ∀ c, rest.head? = some c → p c = false) :
    (∀ c ∈ a, p c = true) →
      (a ++ rest).takeWhile p = a ∧ (a ++ rest).dropWhile p = rest := by
  induction a with
  | nil =>
    intro _
    cases rest with
    | nil => simp
    | cons c t =>
      have := hr c rfl
      simp [this]
  | cons c a ih =>
    intro ha
    have hc := ha c (List.mem_cons_self c a)
    have ih' := ih (fun x hx => ha x (List.mem_cons_of_mem c hx))
    simp [hc, ih'.1, ih'.2]

theorem digit1_append (a rest : Str) (h1 : a ≠ [])
    (h2 : ∀ c ∈ a, c.isDigit = true)
    (h3 : ∀ c, rest.head? = some c → c.isDigit = false) :
    digit1 (a ++ rest) = some (rest, a) := by
  obtain ⟨ht, hd⟩ := takeWhile_append_all Char.isDigit a rest h3 h2
  cases a with
  | nil => exact absurd rfl h1
  | cons c t =>
    simp only [digit1, takeWhile1]
    rw [ht, hd]
    simp

theorem mapRes_digit1_i32 (a rest : Str) (h1 : a ≠ [])
    (h2 : ∀ c ∈ a, c.isDigit = true)
    (h3 : ∀ c, rest.head? = some c → c.isDigit = false)
    (hb : natVal a ≤ 2147483647) :
    mapRes digit1 parseI32 (a ++ rest) = some (rest, (natVal a : Int)) := by
  have hall : a.all Char.isDigit = true := List.all_eq_true.mpr h2
  simp [mapRes, digit1_append a rest h1 h2 h3, parseI32, h1, hall, hb]

theorem mapRes_digit1_u32 (a rest : Str) (h1 : a ≠ [])
    (h2 : ∀ c ∈ a, c.isDigit = true)
    (h3 : ∀ c, rest.head? = some c → c.isDigit = false)
    (hb : natVal a ≤ 4294967295) :
    mapRes digit1 parseU32 (a ++ rest) = some (rest, natVal a) := by
  have hall : a.all Char.isDigit = true := List.all_eq_true.mpr h2
  simp [mapRes, digit1_append a rest h1 h2 h3, parseU32, h1, hall, hb]

theorem sep_tag {s : Char} (hs : s = '-' ∨ s = '/') (rest : Str) :
    palt (tagP ['-']) (tagP ['/']) (s :: rest) = some (rest, [s]) := by
  rcases hs with rfl | rfl
  · simp [palt, tagP, List.isPrefixOf]
  · simp [palt, tagP, List.isPrefixOf]

theorem daysInMonth_le (y : Int) (m : Nat) : daysInMonth y m ≤ 31 := by
  unfold daysInMonth
  split
  · omega
  · split
    · omega
    · split <;> omega

end PTA

namespace PTA

/-- C6: for every digit-run triple forming a valid calendar date and every pair
of separators drawn independently from `-` and `/` (they need not match), the
date parser succeeds and yields exactly that date; in particular the four
spellings `2024-1-1`, `2024-01-01`, `2024/1/1`, `2024/01/01` all yield the
same date. -/
theorem date_valid_accepts :
    (∀ (ys ms ds : Str) (s1 s2 : Char) (dt : NaiveDate),
      ys ≠ [] → (∀ c ∈ ys, c.isDigit = true) →
      ms ≠ [] → (∀ c ∈ ms, c.isDigit = true) →
      ds ≠ [] → (∀ c ∈ ds, c.isDigit = true) →
      (s1 = '-' ∨ s1 = '/') → (s2 = '-' ∨ s2 = '/') →
      fromYmdOpt (natVal ys) (natVal ms) (natVal ds) = some dt →
      date (ys ++ s1 :: (ms ++ s2 :: ds)) = POut.ok [] dt) ∧
    (date (chars "2024-1-1") = POut.ok [] ⟨2024, 1, 1⟩ ∧
     date (chars "2024-01-01") = POut.ok [] ⟨2024, 1, 1⟩ ∧
     date (chars "2024/1/1") = POut.ok [] ⟨2024, 1, 1⟩ ∧
     date (chars "2024/01/01") = POut.ok [] ⟨2024, 1, 1⟩) := by
  constructor
  · intro ys ms ds s1 s2 dt hy1 hy2 hm1 hm2 hd1 hd2 hs1 hs2 hv
    have hcond : -262144 ≤ (natVal ys : Int) ∧ (natVal ys : Int) ≤ 262143 ∧
        1 ≤ natVal ms ∧ natVal ms ≤ 12 ∧ 1 ≤ natVal ds ∧
        natVal ds ≤ daysInMonth (natVal ys) (natVal ms) := by
      by_contra hnc
      have hv' := hv
      unfold fromYmdOpt at hv'
      rw [if_neg hnc] at hv'
      cases hv'
    have hby : natVal ys ≤ 2147483647 := by
      have h := hcond.2.1
      omega
    have hbm : natVal ms ≤ 4294967295 := by
      have h := hcond.2.2.2.1
      omega
    have hbd : natVal ds ≤ 4294967295 := by
      have h1 := hcond.2.2.2.2.2
      have h2 := daysInMonth_le (natVal ys) (natVal ms)
      omega
    have hsep1 : ∀ c : Char, (s1 :: (ms ++ s2 :: ds)).head? = some c → c.isDigit = false := by
      intro c hc
      simp only [List.head?] at hc
      cases hc
      rcases hs1 with rfl | rfl <;> decide
    have hsep2 : ∀ c : Char, (s2 :: ds).head? = some c → c.isDigit = false := by
      intro c hc
      simp only [List.head?] at hc
      cases hc
      rcases hs2 with rfl | rfl <;> decide
    have hnil : ∀ c : Char, (([] : Str)).head? = some c → c.isDigit = false := by
      intro c hc
      cases hc
    have e1 := mapRes_digit1_i32 ys (s1 :: (ms ++ s2 :: ds)) hy1 hy2 hsep1 hby
    have e2 := mapRes_digit1_u32 ms (s2 :: ds) hm1 hm2 hsep2 hbm
    have e3 := mapRes_digit1_u32 ds [] hd1 hd2 hnil hbd
    rw [List.append_nil] at e3
    have et1 := sep_tag hs1 (ms ++ s2 :: ds)
    have et2 := sep_tag hs2 ds
    have hcore : dateCore (ys ++ s1 :: (ms ++ s2 :: ds)) =
        some ([], ((natVal ys : Int), natVal ms, natVal ds)) := by
      unfold dateCore
      simp only [pbind, pmap, e1, et1, e2, et2, e3]
    unfold date
    simp only [hcore, hv]
  · exact ⟨by decide, by decide, by decide, by decide⟩

/-- Witness for C6: the universal statement applied at the mixed-separator
spelling `2024-01/01`, hypotheses discharged by computation. -/
theorem date_valid_accepts_witness :
    date (chars "2024" ++ '-' :: (chars "01" ++ '/' :: chars "01")) =
      POut.ok [] ⟨2024, 1, 1⟩ :=
  date_valid_accepts.1 (chars "2024") (chars "01") (chars "01") '-' '/' ⟨2024, 1, 1⟩
    (by decide) (by decide) (by decide) (by decide) (by decide) (by decide)
    (Or.inl rfl) (Or.inr rfl) (by decide)

end PTA

namespace PTA

/-- The property C9 asserts of every produced currency symbol. -/
def GoodCurrency (s : Str) : Prop := s ≠ [] ∧ ∀ x ∈ s, x.isAlpha = true

theorem alpha1_out {l r s : Str} (h : alpha1 l = some (r, s)) : GoodCurrency s := by
  simp only [alpha1, takeWhile1] at h
  by_cases he : (l.takeWhile Char.isAlpha).isEmpty
  · simp [he] at h
  · simp only [he, Bool.false_eq_true, if_false, Option.some.injEq, Prod.mk.injEq] at h
    obtain ⟨-, rfl⟩ := h
    constructor
    · intro hs
      exact he (by simp [hs])
    · intro x hx
      exact List.mem_takeWhile_imp hx

theorem sepPair_alpha_first {s q : Parser Str} {l r c a : Str}
    (h : separatedPair alpha1 s q l = some (r, (c, a))) : GoodCurrency c := by
  simp only [separatedPair, pbind, pmap] at h
  cases h1 : alpha1 l with
  | none => simp [h1] at h
  | some pr =>
    obtain ⟨r1, c1⟩ := pr
    simp only [h1] at h
    cases h2 : s r1 with
    | none => simp [h2] at h
    | some pr2 =>
      obtain ⟨r2, w⟩ := pr2
      simp only [h2] at h
      cases h3 : q r2 with
      | none => simp [h3] at h
      | some pr3 =>
        obtain ⟨r3, v⟩ := pr3
        simp only [h3, Option.some.injEq, Prod.mk.injEq] at h
        obtain ⟨rfl, rfl, rfl⟩ := h
        exact alpha1_out h1

theorem sepPair_alpha_second {s q : Parser Str} {l r c a : Str}
    (h : pmap (separatedPair q s alpha1) (fun p => (p.2, p.1)) l = some (r, (c, a))) :
    GoodCurrency c := by
  simp only [pmap, separatedPair, pbind] at h
  cases h1 : q l with
  | none => simp [h1] at h
  | some pr =>
    obtain ⟨r1, v⟩ := pr
    simp only [h1] at h
    cases h2 : s r1 with
    | none => simp [h2] at h
    | some pr2 =>
      obtain ⟨r2, w⟩ := pr2
      simp only [h2] at h
      cases h3 : alpha1 r2 with
      | none => simp [h3] at h
      | some pr3 =>
        obtain ⟨r3, c1⟩ := pr3
        simp only [pmap, h3, Option.some.injEq, Prod.mk.injEq] at h
        obtain ⟨rfl, rfl, rfl⟩ := h
        exact alpha1_out h3

theorem amountCore_currency {l r c a : Str}
    (h : amountCore l = some (r, (c, a))) : GoodCurrency c := by
  simp only [amountCore, palt] at h
  cases hb1 : separatedPair alpha1 space0 float l with
  | some pr =>
    simp only [hb1, Option.some.injEq] at h
    subst h
    exact sepPair_alpha_first hb1
  | none =>
    simp only [hb1] at h
    cases hb2 : separatedPair alpha1 space0 digit1 l with
    | some pr =>
      simp only [hb2, Option.some.injEq] at h
      subst h
      exact sepPair_alpha_first hb2
    | none =>
      simp only [hb2] at h
      cases hb3 : pmap (separatedPair float space0 alpha1) (fun p => (p.2, p.1)) l with
      | some pr =>
        simp only [hb3, Option.some.injEq] at h
        subst h
        exact sepPair_alpha_second hb3
      | none =>
        simp only [hb3] at h
        exact sepPair_alpha_second h

theorem amount_ok_currency {l r : Str} {am : Amount}
    (h : amount l = POut.ok r am) : GoodCurrency am.currency := by
  unfold amount at h
  cases hc : amountCore l with
  | none => simp [hc] at h
  | some pr =>
    obtain ⟨r1, c1, a1⟩ := pr
    simp only [hc] at h
    cases hd : decFromStr a1 with
    | none => simp [hd] at h
    | some q =>
      simp only [hd, POut.ok.injEq] at h
      obtain ⟨rfl, rfl⟩ := h
      exact amountCore_currency hc

theorem posting_ok_currency {l r : Str} {p : Posting} (h : posting l = POut.ok r p) :
    ∀ am, p.amount = some am → GoodCurrency am.currency := by
  unfold posting at h
  cases h1 : takeUntil [' '] l with
  | none => simp [h1] at h
  | some pr =>
    obtain ⟨r1, nm⟩ := pr
    simp only [h1] at h
    cases h2 : space2 r1 with
    | none => simp [h2] at h
    | some pr2 =>
      obtain ⟨r2, u⟩ := pr2
      simp only [h2] at h
      cases h3 : amount r2 with
      | ok r3 a =>
        simp only [h3, POut.ok.injEq] at h
        obtain ⟨rfl, rfl⟩ := h
        intro am ham
        simp only [Option.some.injEq] at ham
        subst ham
        exact amount_ok_currency h3
      | fail =>
        simp only [h3, POut.ok.injEq] at h
        obtain ⟨rfl, rfl⟩ := h
        intro am ham
        cases ham
      | abort => simp [h3] at h

theorem sepListGo_all {α β : Type} {sep : Parser β} {elem : Str → POut α}
    {Q : α → Prop} (he : ∀ l r a, elem l = POut.ok r a → Q a) :
    ∀ (f : Nat) (l r : Str) (as : List α),
      sepListGo sep elem f l = POut.ok r as → ∀ a ∈ as, Q a := by
  intro f
  induction f with
  | zero =>
    intro l r as h
    simp only [sepListGo] at h
    cases hs : sep l with
    | none =>
      simp only [hs, POut.ok.injEq] at h
      obtain ⟨rfl, rfl⟩ := h
      intro a ha
      cases ha
    | some pr => simp [hs] at h
  | succ f ih =>
    intro l r as h
    simp only [sepListGo] at h
    cases hs : sep l with
    | none =>
      simp only [hs, POut.ok.injEq] at h
      obtain ⟨rfl, rfl⟩ := h
      intro a ha
      cases ha
    | some pr =>
      obtain ⟨r1, w⟩ := pr
      simp only [hs] at h
      by_cases hlen : l.length ≤ r1.length
      · simp [hlen] at h
      · simp only [if_neg hlen] at h
        cases helem : elem r1 with
        | fail =>
          simp only [helem, POut.ok.injEq] at h
          obtain ⟨rfl, rfl⟩ := h
          intro a ha
          cases ha
        | abort => simp [helem] at h
        | ok r2 a =>
          simp only [helem] at h
          cases hgo : sepListGo sep elem f r2 with
          | ok r3 as2 =>
            simp only [hgo, POut.ok.injEq] at h
            obtain ⟨rfl, rfl⟩ := h
            intro x hx
            rcases List.mem_cons.mp hx with rfl | hx2
            · exact he r1 r2 x helem
            · exact ih r2 _ as2 hgo x hx2
          | fail => simp [hgo] at h
          | abort => simp [hgo] at h

theorem sepList0_all {α β : Type} {sep : Parser β} {elem : Str → POut α}
    {Q : α → Prop} (he : ∀ l r a, elem l = POut.ok r a → Q a)
    {l r : Str} {as : List α}
    (h : sepList0 sep elem l = POut.ok r as) : ∀ a ∈ as, Q a := by
  unfold sepList0 at h
  cases h1 : elem l with
  | fail =>
    simp only [h1, POut.ok.injEq] at h
    obtain ⟨rfl, rfl⟩ := h
    intro a ha
    cases ha
  | abort => simp [h1] at h
  | ok r1 a =>
    simp only [h1] at h
    cases hgo : sepListGo sep elem (r1.length + 1) r1 with
    | ok r2 as2 =>
      simp only [hgo, POut.ok.injEq] at h
      obtain ⟨rfl, rfl⟩ := h
      intro x hx
      rcases List.mem_cons.mp hx with rfl | hx2
      · exact he l r1 x h1
      · exact sepListGo_all he (r1.length + 1) r1 _ as2 hgo x hx2
    | fail => simp [hgo] at h
    | abort => simp [hgo] at h

/-- C9: every `CurrencyAmount` produced by the amount parser — and hence every
amount inside any posting of any transaction returned by the top-level
parser — has a non-empty, all-alphabetic currency symbol (it comes from
`alpha1` in every branch of the four-way alternation). -/
theorem currency_invariant :
    (∀ (l r : Str) (am : Amount), amount l = POut.ok r am → GoodCurrency am.currency) ∧
    (∀ (l r : Str) (t : Transaction), transaction l = POut.ok r t →
      ∀ p ∈ t.postings, ∀ am, p.amount = some am → GoodCurrency am.currency) := by
  constructor
  · exact fun l r am h => amount_ok_currency h
  · intro l r t h p hp am ham
    unfold transaction at h
    cases h1 : date l with
    | fail => simp [h1] at h
    | abort => simp [h1] at h
    | ok r1 d =>
      simp only [h1] at h
      cases h2 : optA auxillary_date r1 with
      | fail => simp [h2] at h
      | abort => simp [h2] at h
      | ok r2 aux =>
        simp only [h2] at h
        cases h3 : transaction_state r2 with
        | none => simp [h3] at h
        | some pr3 =>
          obtain ⟨r3, st⟩ := pr3
          simp only [h3] at h
          cases h4 : popt code r3 with
          | none => simp [h4] at h
          | some pr4 =>
            obtain ⟨r4, cd⟩ := pr4
            simp only [h4] at h
            cases h5 : description r4 with
            | none => simp [h5] at h
            | some pr5 =>
              obtain ⟨r5, mer, memo⟩ := pr5
              simp only [h5] at h
              cases h6 : sepList0 lineEnding posting r5 with
              | fail => simp [h6] at h
              | abort => simp [h6] at h
              | ok r6 ps =>
                simp only [h6, POut.ok.injEq] at h
                obtain ⟨rfl, rfl⟩ := h
                have hq : ∀ q ∈ ps, ∀ am2, Posting.amount q = some am2 →
                    GoodCurrency am2.currency :=
                  sepList0_all (fun l2 r2' p2 hp2 => posting_ok_currency hp2) h6
                exact hq p hp am ham

/-- Witness for C9: the first conjunct applied to the concrete parse of
`USD20.00`. -/
theorem currency_invariant_witness : GoodCurrency (chars "USD") :=
  currency_invariant.1 (chars "USD20.00") [] ⟨chars "USD", ⟨2000, 2⟩⟩ (by decide)

end PTA

namespace PTA

/-! ## Claim theorems -/

/-- C1: the claim states that a syntactically matching but calendrically
invalid date yields a structured `InvalidCalendarDate` failure and does not
abort the process.  The source instead calls
`NaiveDate::from_ymd_opt(..).expect("Invalid date")`, which panics: at the
spec's own example input `2024-13-40` the parser aborts. -/
theorem date_invalid_calendar_aborts :
    date (chars "2024-13-40") = POut.abort := by decide

/-- C2: the claim (and the repository's own `parse_transaction` test) states
the end-to-end input parses to state `Cleared`, code `Some("#100")`, merchant
`Some("Merchant")`, memo `"Memo"` and one posting `Expenses:Food`/USD 20.00.
Under the spec's mandated resolution of the ill-typed auxiliary-date line the
parser actually yields state `Uncleared`, no code, merchant
`" * (#100) Merchant"`, and an account name that swallows the line break and
tab — the code contradicts its own test. -/
theorem transaction_end_to_end_diverges :
    transaction (chars "2024-3-2=2024/03/03 * (#100) Merchant | Memo\n\tExpenses:Food  USD20.00") =
      POut.ok []
        ⟨⟨2024, 3, 2⟩, some ⟨2024, 3, 3⟩, TransactionState.Uncleared, none,
          some (chars " * (#100) Merchant"), chars "Memo",
          [⟨⟨chars "\n\tExpenses:Food"⟩, some ⟨chars "USD", ⟨2000, 2⟩⟩⟩]⟩ := by decide

/-- C4: the claim states that a matched float literal containing `_` grouping
separators is stripped before conversion, and that a failed conversion is
returned to the caller as a parse failure.  The source passes the span to
`Decimal::from_str` unstripped and calls `.unwrap()`: at the claim's own
example input `USD 1_0.5` the parser aborts instead of yielding 10.5. -/
theorem amount_underscore_aborts :
    amount (chars "USD 1_0.5") = POut.abort := by decide

/-- C5: the four currency/number orderings `USD 20`, `20.00 USD`, `USD20.00`
and `20USD` all succeed and yield the same value — currency `USD`, exact
decimal 20.00. -/
theorem amount_ordering_equivalence :
    amount (chars "USD 20") = POut.ok [] ⟨chars "USD", ⟨20, 0⟩⟩ ∧
    amount (chars "20.00 USD") = POut.ok [] ⟨chars "USD", ⟨2000, 2⟩⟩ ∧
    amount (chars "USD20.00") = POut.ok [] ⟨chars "USD", ⟨2000, 2⟩⟩ ∧
    amount (chars "20USD") = POut.ok [] ⟨chars "USD", ⟨20, 0⟩⟩ ∧
    Dec.valEq ⟨20, 0⟩ ⟨2000, 2⟩ := by decide

/-- C3 counterexample: the claim states the account is matched up to the first
run of two or more spaces, so that an account name may itself contain single
spaces — on `"a b  c"` it therefore predicts success with account `"a b"`.
The source's `take_until(" ")` stops at the first single space instead, and
`space2` then finds `'b'` where it requires more whitespace, so the posting
parser fails on this input. -/
theorem posting_single_space_account_fails :
    posting (chars "a b  c") = POut.fail := by decide

/-- C7: the numeric literal lexer accepts `.42`, `42E42`, `42.42E42`, `42.`,
`42.42` with the matched span equal to the whole input, and fails on every
plain digit-run (digits with optional grouping underscores) containing no
decimal point and no exponent marker. -/
theorem float_shapes :
    (float (chars ".42") = some ([], chars ".42") ∧
     float (chars "42E42") = some ([], chars "42E42") ∧
     float (chars "42.42E42") = some ([], chars "42.42E42") ∧
     float (chars "42.") = some ([], chars "42.") ∧
     float (chars "42.42") = some ([], chars "42.42")) ∧
    ∀ l : Str, (∀ c ∈ l, c.isDigit = true ∨ c = '_') → float l = none :=
  ⟨by decide, float_fails_on_digit_run⟩

/-- Witness for C7: the second conjunct applied at the spec's example `42`. -/
theorem float_shapes_witness : float (chars "42") = none :=
  float_shapes.2 (chars "42") (by decide)

/-- C8: the state parser never fails — `*` is consumed and yields `Cleared`,
`!` is consumed and yields `Pending`, and any other input (including the empty
one) is left untouched and yields `Uncleared` as a default value. -/
theorem transaction_state_total (l : Str) :
    transaction_state l =
      some (if l.head? = some '*' then (l.tail, TransactionState.Cleared)
            else if l.head? = some '!' then (l.tail, TransactionState.Pending)
            else (l, TransactionState.Uncleared)) := by
  cases l with
  | nil => rfl
  | cons c r =>
    simp only [transaction_state, popt, palt, pmap, pchar]
    by_cases h1 : c = '*'
    · subst h1; simp
    · by_cases h2 : c = '!'
      · subst h2; simp
      · simp [h1, h2]

/-- C10 counterexample: the claim states that whenever `" | "` occurs anywhere
in the input, the parser returns `Some` merchant, with the memo stopping at the
first line ending.  On `"a\nb | c\rd"` the delimiter occurs on the second line,
but the memo scan (`not_line_ending`) hits a carriage return not followed by a
newline, which is an error in nom — the whole parser fails instead of
returning a merchant. -/
theorem description_lone_cr_fails :
    description (chars "a\nb | c\rd") = none := by decide

end PTA

namespace PTA

theorem findSub_prefixOf (t : Str) :
    ∀ (l : Str) (i : Nat), findSub t l = some i → t.isPrefixOf (l.drop i) = true := by
  intro l
  induction l with
  | nil =>
    intro i h
    simp only [findSub] at h
    by_cases hp : t.isPrefixOf ([] : Str)
    · simp only [if_pos hp, Option.some.injEq] at h
      subst h
      simpa using hp
    · simp [hp] at h
  | cons c r ih =>
    intro i h
    simp only [findSub] at h
    by_cases hp : t.isPrefixOf (c :: r)
    · simp only [if_pos hp, Option.some.injEq] at h
      subst h
      simpa using hp
    · simp only [if_neg hp] at h
      cases hf : findSub t r with
      | none => rw [hf] at h; cases h
      | some j =>
        rw [hf] at h
        simp at h
        subst h
        simpa using ih j hf

theorem notLineEnding_memo {l r memo : Str} (h : notLineEnding l = some (r, memo)) :
    memo = l.takeWhile (fun c => !(c == '\r' || c == '\n')) := by
  simp only [notLineEnding] at h
  cases hd : l.dropWhile (fun c => !(c == '\r' || c == '\n')) with
  | nil =>
    simp only [hd, Option.some.injEq, Prod.mk.injEq] at h
    exact h.2.symm
  | cons c0 rest2 =>
    simp only [hd] at h
    split at h
    · split at h
      · cases h
      · split at h
        · simp only [Option.some.injEq, Prod.mk.injEq] at h
          exact h.2.symm
        · cases h
    · simp only [Option.some.injEq, Prod.mk.injEq] at h
      exact h.2.symm

/-- Formalisation of the amended description claim.  First part: whenever the
three-character delimiter `" | "` occurs in the input — on the first line or
any later one — and the text after the delimiter scans to a memo (its first
carriage return, if any precedes a newline, is followed by a newline), the
parser succeeds with merchant `Some` of everything before the delimiter
(line breaks included) and the memo stopping at the first line ending.
Second part: a successful parse reports merchant `None` only when the
delimiter occurs nowhere in the input. -/
theorem description_multiline :
    (∀ (l : Str) (i : Nat) (rest memo : Str),
      findSub (chars " | ") l = some i →
      notLineEnding (l.drop (i + 3)) = some (rest, memo) →
      description l = some (rest, (some (l.take i), memo)) ∧
        ∀ c ∈ memo, c ≠ '\r' ∧ c ≠ '\n') ∧
    (∀ (l rest memo : Str), description l = some (rest, (none, memo)) →
      findSub (chars " | ") l = none) := by
  constructor
  · intro l i rest memo hf hnle
    have htag : tagP (chars " | ") (l.drop i) =
        some ((l.drop i).drop 3, chars " | ") := by
      simp only [tagP, findSub_prefixOf (chars " | ") l i hf, if_true]
      rfl
    have hdrop : (l.drop i).drop 3 = l.drop (i + 3) := by
      rw [List.drop_drop]
    constructor
    · unfold description popt takeUntil
      rw [hf]
      simp only [htag, hdrop, hnle]
    · intro c hc
      have hm := notLineEnding_memo hnle
      subst hm
      have hb := List.mem_takeWhile_imp hc
      constructor
      · intro hcr
        subst hcr
        simp at hb
      · intro hlf
        subst hlf
        simp at hb
  · intro l rest memo h
    cases hf : findSub (chars " | ") l with
    | none => rfl
    | some i =>
      exfalso
      unfold description popt takeUntil at h
      rw [hf] at h
      cases htag : tagP (chars " | ") (l.drop i) with
      | none => simp [htag] at h
      | some pr =>
        obtain ⟨r2, w⟩ := pr
        simp only [htag] at h
        cases hnle : notLineEnding r2 with
        | none => simp [hnle] at h
        | some pr2 =>
          obtain ⟨r3, m⟩ := pr2
          simp only [hnle, Option.some.injEq, Prod.mk.injEq] at h
          exact Option.noConfusion h.2.1

/-- Witness for C10: the first conjunct applied to the multi-line input
`"a\nb | c\nd"`, where the delimiter sits on the second line — the merchant
spans the line break, the memo stops at the following line ending. -/
theorem description_multiline_witness :
    description (chars "a\nb | c\nd") =
      some (chars "\nd", (some (chars "a\nb"), chars "c")) ∧ '\n' ∈ chars "a\nb" :=
  ⟨((description_multiline.1 (chars "a\nb | c\nd") 3 (chars "\nd") (chars "c")
      (by decide) (by decide)).1 : _),
   by decide⟩

end PTA
